import Mathlib

/-!
Verification of the rummikub placement engine (`src/structures.rs`,
`src/mutations.rs`).

The Rust code is shallowly embedded: `u8` fields become `Nat`, and every
`u8` arithmetic operation performed by the code is modelled with explicit
wraparound (`% 256`, matching two's-complement release-mode semantics);
the `i32` shift in `split_run` is modelled with the masked shift amount and
signed interpretation that Rust release builds use.  Fallible operations
return `Option`.  `println!` calls are pure logging and are dropped.
-/

set_option maxRecDepth 4000

namespace Rummikub

/-! ### Data model (structures.rs) -/

/-- `Color` enumeration, in Rust declaration order (discriminants 0-3). -/
inductive Color where
  | Blue
  | Red
  | Orange
  | Black
deriving DecidableEq, Repr

/-- The discriminant of a color (`color as u8` in the sort comparator). -/
def Color.idx : Color → Nat
  | .Blue => 0
  | .Red => 1
  | .Orange => 2
  | .Black => 3

/-- A tile: a color and a `u8` value. -/
structure Tile where
  color : Color
  value : Nat
deriving DecidableEq, Repr

/-- A group: same-valued tiles of several colors. -/
structure Group where
  value : Nat
  colors : List Color
deriving DecidableEq, Repr

/-- `Group::valid`: inserting every color into a set succeeds iff there are
no duplicates. -/
def Group.valid (g : Group) : Bool := decide g.colors.Nodup

/-- A run: the closed range `[start, end]` of consecutive values in one
color. -/
structure Run where
  start : Nat
  «end» : Nat
  color : Color
deriving DecidableEq, Repr

/-- `Run::valid`: `start < end && end - start >= 2` (the subtraction is
only reached when `start < end`, so it never wraps). -/
def Run.valid (r : Run) : Bool :=
  decide (r.start < r.«end») && decide (2 ≤ r.«end» - r.start)

/-- The board: groups and runs. -/
structure Board where
  groups : List Group
  runs : List Run
deriving DecidableEq, Repr

/-- `Board::valid`: every group and every run is valid. -/
def Board.valid (b : Board) : Bool :=
  b.groups.all Group.valid && b.runs.all Run.valid

/-! ### u8 arithmetic helpers -/

/-- Wrapping `u8` addition. -/
def u8add (a b : Nat) : Nat := (a + b) % 256

/-- Wrapping `u8` subtraction (for `a, b < 256` this is `(a - b) mod 256`). -/
def u8sub (a b : Nat) : Nat := (a + 256 - b % 256) % 256

/-! ### Run extension (mutations.rs) -/

/-- `extend_run_tail`: the guard is `run.color == tile.color &&
run.end == tile.value - 1`, with a wrapping `u8` subtraction. -/
def extend_run_tail (run : Run) (tile : Tile) : Option Run :=
  if run.color = tile.color ∧ run.«end» = u8sub tile.value 1 then
    some { start := run.start, «end» := tile.value, color := run.color }
  else
    none

/-- `extend_run_head`: the guard is `run.color == tile.color &&
run.start == tile.value + 1`, with a wrapping `u8` addition. -/
def extend_run_head (run : Run) (tile : Tile) : Option Run :=
  if run.color = tile.color ∧ run.start = u8add tile.value 1 then
    some { start := tile.value, «end» := run.«end», color := run.color }
  else
    none

/-- `extend_run`: head first, then tail. -/
def extend_run (run : Run) (tile : Tile) : Option Run :=
  match extend_run_head run tile with
  | some r => some r
  | none => extend_run_tail run tile

/-! ### Run splitting (mutations.rs) -/

/-- The inner loop of `split_run`: walk the cut-point indices `is`
(`0 .. run_length - 1`), emitting a segment whenever the mask bit is set.
`cs` is `current_start`; the mask test `split_mask & (1 << i)` masks the
`i32` shift amount by 32. -/
def split_run_go (c : Color) (rstart rend mask : Nat) :
    List Nat → Nat → List Run
  | [], cs => [{ start := cs, «end» := rend, color := c }]
  | i :: is, cs =>
    if mask &&& (1 <<< (i % 32)) ≠ 0 then
      { start := cs, «end» := u8add rstart i, color := c }
        :: split_run_go c rstart rend mask is (u8add (u8add rstart i) 1)
    else
      split_run_go c rstart rend mask is cs

/-- `split_run`: iterate `split_mask` over `1 .. (1 << (run_length - 1))`,
where `run_length = run.end - run.start + 1` in `u8` and the shift is an
`i32` shift (shift amount masked by 32, result interpreted signed, so a
range with a non-positive upper bound is empty). -/
def split_run (run : Run) : List (List Run) :=
  let run_length := u8add (u8sub run.«end» run.start) 1
  let sh := u8sub run_length 1
  let pw : Nat := 1 <<< (sh % 32)
  let bound : Int := if pw < 2 ^ 31 then (pw : Int) else (pw : Int) - 2 ^ 32
  let numMasks : Nat := if bound ≤ 1 then 0 else (bound - 1).toNat
  (List.range' 1 numMasks).map (fun mask =>
    split_run_go run.color run.start run.«end» mask (List.range sh) run.start)

/-! ### Run compression (mutations.rs) -/

/-- The sort order of `compress_runs`: by color discriminant, then by
start. -/
def runLe (a b : Run) : Bool :=
  if a.color.idx = b.color.idx then decide (a.start ≤ b.start)
  else decide (a.color.idx < b.color.idx)

/-- `runLe` as a decidable relation, for the stable sort. -/
abbrev RunOrd (a b : Run) : Prop := runLe a b = true

/-- The merge loop of `compress_runs`: `cur` is `current_run`; a following
run is absorbed when its color matches and its start is `current.end + 1`
(wrapping `u8` addition). -/
def compress_go (cur : Run) : List Run → List Run
  | [] => [cur]
  | r :: rs =>
    if r.color = cur.color ∧ r.start = u8add cur.«end» 1 then
      compress_go { cur with «end» := r.«end» } rs
    else
      cur :: compress_go r rs

/-- `compress_runs`: stable sort by `(color, start)` (Rust's `sort_by` is
a stable sort, and any stable sort under a total preorder produces the
same list, so insertion sort is a faithful model), then merge adjacent
same-color runs. -/
def compress_runs (runs : List Run) : List Run :=
  match runs.insertionSort RunOrd with
  | [] => []
  | r :: rs => compress_go r rs

/-! ### Single-tile placement (mutations.rs) -/

/-- Scan a list of runs in order; at the first run that `extend_run`
extends, replace it in place.  Used both for the board's runs (phase 1 of
`place_tile`) and for the sub-runs of one split. -/
def extendFirstRun (tile : Tile) : List Run → Option (List Run)
  | [] => none
  | r :: rs =>
    match extend_run r tile with
    | some r' => some (r' :: rs)
    | none => (extendFirstRun tile rs).map (r :: ·)

/-- Scan the splits of one run in enumeration order; return the first
split in which some sub-run extends (with that sub-run replaced). -/
def trySplits (tile : Tile) : List (List Run) → Option (List Run)
  | [] => none
  | s :: ss =>
    match extendFirstRun tile s with
    | some s' => some s'
    | none => trySplits tile ss

/-- Phase 2 of `place_tile`: scan runs in order; for the first run with a
successful split-then-extend, substitute the modified split sequence for
that run. -/
def splitPhase (tile : Tile) : List Run → Option (List Run)
  | [] => none
  | r :: rs =>
    match trySplits tile (split_run r) with
    | some s' => some (s' ++ rs)
    | none => (splitPhase tile rs).map (r :: ·)

/-- `place_tile`: try direct extension of each run in order; if none
succeeds, try split-then-extend; groups are never touched. -/
def place_tile (board : Board) (tile : Tile) : Option Board :=
  match extendFirstRun tile board.runs with
  | some rs => some { board with runs := rs }
  | none =>
    match splitPhase tile board.runs with
    | some rs => some { board with runs := rs }
    | none => none

/-! ### Ordered multi-tile placement (mutations.rs) -/

/-- `place_tiles`: scan the tiles in order; the first tile that places
succeeds, and the pass recurses on the strict suffix over the updated
board; a failed tile is skipped and never retried in this pass. -/
def place_tiles : Board → List Tile → Board × List Tile
  | b, [] => (b, [])
  | b, t :: ts =>
    match place_tile b t with
    | some nb =>
      let r := place_tiles nb ts
      (r.1, t :: r.2)
    | none => place_tiles b ts

/-! ### Permutation enumeration (itertools) -/

/-- All ways to pick one element out of a list, each paired with the
remaining elements in order. -/
def removes {α : Type} : List α → List (α × List α)
  | [] => []
  | x :: xs => (x, xs) :: (removes xs).map (fun p => (p.1, x :: p.2))

/-- Full-length permutations in lexicographic position order (the order
`itertools::permutations` emits), with the list length as fuel. -/
def permsAux {α : Type} : Nat → List α → List (List α)
  | 0, _ => [[]]
  | n + 1, l => (removes l).flatMap (fun p => (permsAux n p.2).map (p.1 :: ·))

/-- `tiles.iter().permutations(tiles.len())`. -/
def permsLex {α : Type} (l : List α) : List (List α) := permsAux l.length l

/-- `Iterator::unique`: keep the first occurrence of each value. -/
def uniqueAux {α : Type} [DecidableEq α] (seen : List α) : List α → List α
  | [] => []
  | x :: xs =>
    if x ∈ seen then uniqueAux seen xs else x :: uniqueAux (x :: seen) xs

/-- Deduplicated permutation list, in first-occurrence order. -/
def uniqueList {α : Type} [DecidableEq α] (l : List α) : List α := uniqueAux [] l

/-! ### Optimal placement search (mutations.rs) -/

/-- The permutation loop of `place_tiles_best`, threading the mutable
`best_board` / `best_tiles` state.  A valid attempt replaces the best when
it places strictly more tiles; the loop short-circuits (with compressed
runs and an empty unplaced list) when the best places every input tile. -/
def place_best_loop (board : Board) (tilesLen : Nat) (tiles : List Tile) :
    List (List Tile) → Board → List Tile → Option (Board × List Tile × List Tile)
  | [], bestB, bestT =>
    if bestT.isEmpty then none
    else
      some ({ bestB with runs := compress_runs bestB.runs }, bestT,
        tiles.filter (fun t => !(bestT.contains t)))
  | p :: ps, bestB, bestT =>
    let att := place_tiles board p
    if att.1.valid then
      let best' := if bestT.length < att.2.length then (att.1, att.2) else (bestB, bestT)
      if best'.2.length = tilesLen then
        some ({ best'.1 with runs := compress_runs best'.1.runs }, best'.2, [])
      else
        place_best_loop board tilesLen tiles ps best'.1 best'.2
    else
      place_best_loop board tilesLen tiles ps bestB bestT

/-- `place_tiles_best`: run `place_tiles` over every distinct permutation
of the tiles, keep the best valid attempt, and return it with the
complementary unplaced tiles (`None` when no best was ever recorded). -/
def place_tiles_best (board : Board) (tiles : List Tile) :
    Option (Board × List Tile × List Tile) :=
  place_best_loop board tiles.length tiles (uniqueList (permsLex tiles)) board []

/-! ### Concrete scenario inputs -/

/-- Scenario 1 board: runs `{Blue 2-5, Blue 6-13}`, no groups. -/
def scenario1Board : Board := ⟨[], [⟨2, 5, .Blue⟩, ⟨6, 13, .Blue⟩]⟩

/-- Scenario 1 tiles: `[Blue 3, Blue 4, Black 1, Blue 2]`. -/
def scenario1Tiles : List Tile := [⟨.Blue, 3⟩, ⟨.Blue, 4⟩, ⟨.Black, 1⟩, ⟨.Blue, 2⟩]

/-! ### Claim theorems -/

/-- **C2, counterexample.**  The claim states that on Scenario 1
`place_tiles_best` returns no result because no tile is placeable at all.
In fact the split-then-extend phase of `place_tile` can place Blue 3 (and
Blue 4, Blue 2) by splitting the run Blue 2-5, so `place_tiles_best`
returns a result. -/
theorem C2_counterexample :
    (place_tiles_best scenario1Board scenario1Tiles).isSome = true := by decide

/-- **C2, amended.**  On Scenario 1 `place_tiles_best` returns
`Some`: the first permutation (the input order) places Blue 3, Blue 4 and
Blue 2 through run splits, Black 1 is never placeable, and after
compression the board's runs are `{Blue 2-4, Blue 2-13}`. -/
theorem C2_scenario1_places_three :
    place_tiles_best scenario1Board scenario1Tiles =
      some (⟨[], [⟨2, 4, .Blue⟩, ⟨2, 13, .Blue⟩]⟩,
        [⟨.Blue, 3⟩, ⟨.Blue, 4⟩, ⟨.Blue, 2⟩], [⟨.Black, 1⟩]) := by decide

/-- **C6 (code bug).**  The spec says `extend_tail(R, T)` succeeds iff
`T.color == R.color` and `T.value == R.end + 1` (and symmetrically for
`extend_head`), but the unguarded `u8` arithmetic makes a tile of value 0
"extend" a same-color run ending at 255 (and a tile of value 255 "extend"
a same-color run starting at 0) under wrapping semantics, and a debug
build panics there instead of returning `None`. -/
theorem C6_boundary_divergence :
    extend_run_tail ⟨253, 255, .Blue⟩ ⟨.Blue, 0⟩ = some ⟨253, 0, .Blue⟩ ∧
      (Tile.mk .Blue 0).value ≠ (Run.mk 253 255 .Blue).«end» + 1 ∧
      extend_run_head ⟨0, 2, .Blue⟩ ⟨.Blue, 255⟩ = some ⟨255, 2, .Blue⟩ ∧
      (Tile.mk .Blue 255).value + 1 ≠ (Run.mk 0 2 .Blue).start := by decide

/-- **C9.**  `place_tile` does not preserve board validity: on the valid
board with the single run Blue 2-5, placing Blue 3 splits the run into
Blue 2-2 / Blue 3-5 and extends the first sub-run, returning a board
containing the two-value run Blue 2-3, on which `Board.valid` is false. -/
theorem C9_place_tile_breaks_validity :
    (Board.mk [] [⟨2, 5, .Blue⟩]).valid = true ∧
      place_tile ⟨[], [⟨2, 5, .Blue⟩]⟩ ⟨.Blue, 3⟩ =
        some ⟨[], [⟨2, 3, .Blue⟩, ⟨3, 5, .Blue⟩]⟩ ∧
      (Board.mk [] [⟨2, 3, .Blue⟩, ⟨3, 5, .Blue⟩]).valid = false := by decide

/-- **C10.**  The adjacency tests use unguarded `u8` arithmetic: under
mod-2^8 semantics a tile of value 0 extends (at the tail) exactly the
same-color runs ending at 255, and a tile of value 255 extends (at the
head) exactly the same-color runs starting at 0; only for
`1 ≤ tile.value` (tail) resp. `tile.value ≤ 254` (head) do the guards
coincide with the exact-integer adjacency conditions; both wrap cases are
reachable through the public `place_tile`. -/
theorem C10_u8_wraparound (r : Run) (t : Tile) (ht : t.value < 256) :
    (t.value = 0 →
      (extend_run_tail r t = some ⟨r.start, 0, r.color⟩ ↔
        r.color = t.color ∧ r.«end» = 255)) ∧
    (1 ≤ t.value →
      ((extend_run_tail r t).isSome = true ↔
        r.color = t.color ∧ t.value = r.«end» + 1)) ∧
    (t.value = 255 →
      (extend_run_head r t = some ⟨255, r.«end», r.color⟩ ↔
        r.color = t.color ∧ r.start = 0)) ∧
    (t.value ≤ 254 →
      ((extend_run_head r t).isSome = true ↔
        r.color = t.color ∧ r.start = t.value + 1)) ∧
    place_tile ⟨[], [⟨253, 255, .Blue⟩]⟩ ⟨.Blue, 0⟩ =
      some ⟨[], [⟨253, 0, .Blue⟩]⟩ ∧
    place_tile ⟨[], [⟨0, 2, .Blue⟩]⟩ ⟨.Blue, 255⟩ =
      some ⟨[], [⟨255, 2, .Blue⟩]⟩ := by
  refine ⟨?_, ?_, ?_, ?_, by decide, by decide⟩
  · intro h0
    constructor
    · intro h
      unfold extend_run_tail at h
      split at h
      · rename_i hg
        refine ⟨hg.1, ?_⟩
        have h2 := hg.2
        rw [h0] at h2
        simpa [u8sub] using h2
      · simp at h
    · rintro ⟨hc, he⟩
      unfold extend_run_tail
      rw [if_pos ⟨hc, by rw [h0]; simpa [u8sub] using he⟩]
      simp [h0]
  · intro h1
    have hsub : u8sub t.value 1 = t.value - 1 := by
      unfold u8sub
      omega
    constructor
    · intro h
      unfold extend_run_tail at h
      split at h
      · rename_i hg
        exact ⟨hg.1, by omega⟩
      · simp at h
    · rintro ⟨hc, he⟩
      unfold extend_run_tail
      rw [if_pos ⟨hc, by omega⟩]
      simp
  · intro h255
    constructor
    · intro h
      unfold extend_run_head at h
      split at h
      · rename_i hg
        refine ⟨hg.1, ?_⟩
        have h2 := hg.2
        rw [h255] at h2
        simpa [u8add] using h2
      · simp at h
    · rintro ⟨hc, hs⟩
      unfold extend_run_head
      rw [if_pos ⟨hc, by rw [h255]; simpa [u8add] using hs⟩]
      simp [h255]
  · intro h254
    have hadd : u8add t.value 1 = t.value + 1 := by
      unfold u8add
      omega
    constructor
    · intro h
      unfold extend_run_head at h
      split at h
      · rename_i hg
        exact ⟨hg.1, by omega⟩
      · simp at h
    · rintro ⟨hc, hs⟩
      unfold extend_run_head
      rw [if_pos ⟨hc, by omega⟩]
      simp

/-- **C10, witness** at the run Blue 253-255 and the tile Blue 0. -/
theorem C10_u8_wraparound_witness :
    (Tile.mk Color.Blue 0).value < 256 ∧
      (((Tile.mk Color.Blue 0).value = 0 →
          (extend_run_tail ⟨253, 255, .Blue⟩ ⟨.Blue, 0⟩ = some ⟨253, 0, .Blue⟩ ↔
            Color.Blue = Color.Blue ∧ (255 : Nat) = 255)) ∧
        (1 ≤ (Tile.mk Color.Blue 0).value →
          ((extend_run_tail ⟨253, 255, .Blue⟩ ⟨.Blue, 0⟩).isSome = true ↔
            Color.Blue = Color.Blue ∧ (0 : Nat) = 255 + 1)) ∧
        ((Tile.mk Color.Blue 0).value = 255 →
          (extend_run_head ⟨253, 255, .Blue⟩ ⟨.Blue, 0⟩ = some ⟨255, 255, .Blue⟩ ↔
            Color.Blue = Color.Blue ∧ (253 : Nat) = 0)) ∧
        ((Tile.mk Color.Blue 0).value ≤ 254 →
          ((extend_run_head ⟨253, 255, .Blue⟩ ⟨.Blue, 0⟩).isSome = true ↔
            Color.Blue = Color.Blue ∧ (253 : Nat) = 0 + 1)) ∧
        place_tile ⟨[], [⟨253, 255, .Blue⟩]⟩ ⟨.Blue, 0⟩ =
          some ⟨[], [⟨253, 0, .Blue⟩]⟩ ∧
        place_tile ⟨[], [⟨0, 2, .Blue⟩]⟩ ⟨.Blue, 255⟩ =
          some ⟨[], [⟨255, 2, .Blue⟩]⟩) :=
  ⟨by decide, C10_u8_wraparound ⟨253, 255, .Blue⟩ ⟨.Blue, 0⟩ (by decide)⟩

/-! ### The `place_tiles` recursion (C8) -/

/-- If every tile of the sequence fails to place, the pass returns the
board unchanged with nothing placed. -/
theorem place_tiles_all_fail :
    ∀ (ts : List Tile) (b : Board),
      (∀ j (hj : j < ts.length), place_tile b (ts.get ⟨j, hj⟩) = none) →
      place_tiles b ts = (b, [])
  | [], b, _ => rfl
  | t :: ts, b, h => by
    have h0 := h 0 (by simp)
    simp only [List.get] at h0
    show (match place_tile b t with
      | some nb => let r := place_tiles nb ts; (r.1, t :: r.2)
      | none => place_tiles b ts) = (b, [])
    rw [h0]
    exact place_tiles_all_fail ts b (fun j hj => h (j + 1) (by simpa using hj))

/-- If the tiles at indices `0 .. i-1` fail and the tile at index `i`
places, the pass places that tile and recurses on the strict suffix
`ts[i+1:]` over the updated board. -/
theorem place_tiles_first_success :
    ∀ (ts : List Tile) (b : Board) (i : Nat) (hi : i < ts.length) (nb : Board),
      (∀ j (hj : j < i), place_tile b (ts.get ⟨j, Nat.lt_trans hj hi⟩) = none) →
      place_tile b (ts.get ⟨i, hi⟩) = some nb →
      place_tiles b ts =
        ((place_tiles nb (ts.drop (i + 1))).1,
          ts.get ⟨i, hi⟩ :: (place_tiles nb (ts.drop (i + 1))).2)
  | [], _, i, hi, _, _, _ => absurd hi (by simp)
  | t :: ts, b, 0, _, nb, _, hsucc => by
    simp only [List.get] at hsucc ⊢
    show (match place_tile b t with
      | some nb => let r := place_tiles nb ts; (r.1, t :: r.2)
      | none => place_tiles b ts) = _
    rw [hsucc]
    rfl
  | t :: ts, b, i + 1, hi, nb, hfail, hsucc => by
    have h0 := hfail 0 (Nat.succ_pos i)
    simp only [List.get] at h0 hsucc ⊢
    show (match place_tile b t with
      | some nb => let r := place_tiles nb ts; (r.1, t :: r.2)
      | none => place_tiles b ts) = _
    rw [h0]
    exact place_tiles_first_success ts b i (by simpa using hi) nb
      (fun j hj => hfail (j + 1) (by simpa using hj)) hsucc

/-- **C8.**  `place_tiles` follows exactly the recursion the spec
describes: the empty sequence returns the board unchanged with no placed
tiles; otherwise, for the first index `i` where `place_tile` succeeds,
tile `i` is placed and the pass recurses only on the strict suffix
`ts[i+1:]` over the updated board, skipping (never retrying) every failed
tile before `i`; if all tiles fail, the board is unchanged and nothing is
placed. -/
theorem C8_place_tiles_recursion (b : Board) (ts : List Tile) :
    place_tiles b [] = (b, []) ∧
      (∀ i (hi : i < ts.length) (nb : Board),
        (∀ j (hj : j < i), place_tile b (ts.get ⟨j, Nat.lt_trans hj hi⟩) = none) →
        place_tile b (ts.get ⟨i, hi⟩) = some nb →
        place_tiles b ts =
          ((place_tiles nb (ts.drop (i + 1))).1,
            ts.get ⟨i, hi⟩ :: (place_tiles nb (ts.drop (i + 1))).2)) ∧
      ((∀ j (hj : j < ts.length), place_tile b (ts.get ⟨j, hj⟩) = none) →
        place_tiles b ts = (b, [])) :=
  ⟨rfl, fun i hi nb hfail hsucc =>
      place_tiles_first_success ts b i hi nb hfail hsucc,
    place_tiles_all_fail ts b⟩

/-- **C8, witness**: on the board with the single run Blue 5-7 and the
tiles `[Black 1, Blue 8]`, Black 1 fails and Blue 8 places at index 1. -/
theorem C8_place_tiles_recursion_witness :
    place_tiles ⟨[], [⟨5, 7, .Blue⟩]⟩ [⟨.Black, 1⟩, ⟨.Blue, 8⟩] =
      (⟨[], [⟨5, 8, .Blue⟩]⟩, [⟨.Blue, 8⟩]) := by
  have h := (C8_place_tiles_recursion ⟨[], [⟨5, 7, .Blue⟩]⟩
      [⟨.Black, 1⟩, ⟨.Blue, 8⟩]).2.1 1 (by decide) ⟨[], [⟨5, 8, .Blue⟩]⟩
    (fun j hj => by
      have hj0 : j = 0 := by omega
      subst hj0
      show place_tile ⟨[], [⟨5, 7, .Blue⟩]⟩ ⟨.Black, 1⟩ = none
      decide)
    (by decide)
  simpa using h

/-! ### Split partitions (C5) -/

/-- `isPartitionFromB c lo hi segs`: the segments are an ordered, gapless,
contiguous decomposition of the closed range `[lo, hi]`, all in color `c`:
each segment starts exactly where demanded, is non-empty
(`start ≤ end`), and the next segment starts at `end + 1`; the final
demand must be `hi + 1`, i.e. the range is reconstructed exactly. -/
def isPartitionFromB (c : Color) (lo hi : Nat) : List Run → Bool
  | [] => decide (lo = hi + 1)
  | r :: rs =>
    decide (r.start = lo) && decide (r.color = c) && decide (lo ≤ r.«end») &&
      isPartitionFromB c (r.«end» + 1) hi rs

/-- `split_run_go` never returns an empty list. -/
theorem split_run_go_ne_nil (c : Color) (s e m : Nat) :
    ∀ (is : List Nat) (cs : Nat), split_run_go c s e m is cs ≠ []
  | [], _ => by simp [split_run_go]
  | i :: is, cs => by
    unfold split_run_go
    split
    · simp
    · exact split_run_go_ne_nil c s e m is cs

/-- The mask test of `split_run` is the `i`-th bit of the mask (for
`i < 32`, where the `i32` shift is not masked). -/
theorem mask_test_iff (m i : Nat) (hi : i < 32) :
    (m &&& (1 <<< (i % 32)) ≠ 0) ↔ m.testBit i = true := by
  rw [Nat.mod_eq_of_lt hi, Nat.shiftLeft_eq, one_mul, Nat.and_two_pow]
  have hp : (2 : Nat) ^ i ≠ 0 := Nat.pos_iff_ne_zero.mp (Nat.pow_pos (by omega))
  rcases h : m.testBit i with _ | _ <;> simp [h, hp]

/-- A mask in `[1, 2^L)` has a set bit below `L`. -/
theorem exists_mask_bit (L m : Nat) (h1 : 0 < m) (h2 : m < 2 ^ L)
    (hL : L ≤ 31) : ∃ i ∈ List.range L, m &&& (1 <<< (i % 32)) ≠ 0 := by
  obtain ⟨i, hb⟩ := Nat.ne_zero_implies_bit_true (by omega : m ≠ 0)
  have hiL : i < L := by
    by_contra hcon
    have : m < 2 ^ i :=
      lt_of_lt_of_le h2 (Nat.pow_le_pow_right (by omega) (by omega))
    rw [Nat.testBit_lt_two_pow this] at hb
    exact Bool.false_ne_true hb
  exact ⟨i, List.mem_range.mpr hiL,
    (mask_test_iff m i (by omega)).mpr hb⟩

/-- Each list produced by the split loop is a partition of `[cs, e]`,
provided the walk starts at cut index `k` with `k + n = e - s` remaining
cut points and `cs ≤ s + k`. -/
theorem split_run_go_partition (c : Color) (s e m : Nat) (hse : s ≤ e)
    (he : e < 256) :
    ∀ (n k cs : Nat), k + n = e - s → cs ≤ s + k →
      isPartitionFromB c cs e
        (split_run_go c s e m (List.range' k n) cs) = true := by
  intro n
  induction n with
  | zero =>
    intro k cs hk hcs
    simp only [List.range'_zero, split_run_go, isPartitionFromB]
    simp only [Bool.and_eq_true, decide_eq_true_eq]
    refine ⟨⟨⟨trivial, trivial⟩, ?_⟩, trivial⟩
    omega
  | succ n ih =>
    intro k cs hk hcs
    have hsk : s + k < e := by omega
    rw [List.range'_succ]
    unfold split_run_go
    split
    · have ea : u8add s k = s + k := by unfold u8add; omega
      have eb : u8add (s + k) 1 = s + k + 1 := by unfold u8add; omega
      rw [ea, eb]
      unfold isPartitionFromB
      simp only [Bool.and_eq_true, decide_eq_true_eq]
      refine ⟨⟨⟨trivial, trivial⟩, hcs⟩, ?_⟩
      exact ih (k + 1) (s + k + 1) (by omega) (by omega)
    · exact ih (k + 1) cs (by omega) (by omega)

/-- If some cut index in the walk has its mask bit set, the split loop
produces at least two segments. -/
theorem split_run_go_two_segments (c : Color) (s e m : Nat) :
    ∀ (is : List Nat) (cs : Nat), (∃ i ∈ is, m &&& (1 <<< (i % 32)) ≠ 0) →
      2 ≤ (split_run_go c s e m is cs).length
  | [], _, h => absurd h (by simp)
  | i :: is, cs, h => by
    unfold split_run_go
    split
    · have h1 := List.length_pos.mpr
        (split_run_go_ne_nil c s e m is (u8add (u8add s i) 1))
      simp only [List.length_cons]
      omega
    · rename_i hbit
      rcases h with ⟨j, hj, htest⟩
      rcases List.mem_cons.mp hj with rfl | hj'
      · exact absurd htest (by simpa using hbit)
      · exact split_run_go_two_segments c s e m is cs ⟨j, hj', htest⟩

/-- For a `u8` run with `start ≤ end` and at most 31 values, `split_run`
is the map of the split loop over the masks `1 .. 2^(end-start) - 1`. -/
theorem split_run_eq (r : Run) (h1 : r.start ≤ r.«end») (h2 : r.«end» < 256)
    (h3 : r.«end» - r.start ≤ 30) :
    split_run r = (List.range' 1 (2 ^ (r.«end» - r.start) - 1)).map
      (fun mask => split_run_go r.color r.start r.«end» mask
        (List.range (r.«end» - r.start)) r.start) := by
  have e1 : u8sub r.«end» r.start = r.«end» - r.start := by unfold u8sub; omega
  have e2 : u8add (r.«end» - r.start) 1 = r.«end» - r.start + 1 := by
    unfold u8add; omega
  have e3 : u8sub (r.«end» - r.start + 1) 1 = r.«end» - r.start := by
    unfold u8sub; omega
  have e4 : (r.«end» - r.start) % 32 = r.«end» - r.start :=
    Nat.mod_eq_of_lt (by omega)
  have e5 : (1 : Nat) <<< (r.«end» - r.start) = 2 ^ (r.«end» - r.start) := by
    rw [Nat.shiftLeft_eq, one_mul]
  have e6 : (2 : Nat) ^ (r.«end» - r.start) < 2 ^ 31 :=
    Nat.pow_lt_pow_right (by omega) (by omega)
  have hpos : 0 < (2 : Nat) ^ (r.«end» - r.start) := Nat.pow_pos (by omega)
  simp only [split_run, e1, e2, e3, e4, e5]
  rw [if_pos e6]
  have hnum :
      (if ((2 ^ (r.«end» - r.start) : Nat) : Int) ≤ 1 then (0 : Nat)
        else (((2 ^ (r.«end» - r.start) : Nat) : Int) - 1).toNat) =
        2 ^ (r.«end» - r.start) - 1 := by
    split <;> omega
  rw [hnum]

/-- **C5, counterexample.**  The claim quantifies over every run; for the
32-value run Blue 0-31 the `i32` shift `1 << 31` is negative, the mask
range is empty, and `split_run` yields no partitions instead of the
claimed `2^31 - 1`. -/
theorem C5_counterexample :
    split_run ⟨0, 31, .Blue⟩ = [] ∧ 2 ^ (31 - 0 + 1 - 1) - 1 ≠ 0 := by
  constructor
  · decide
  · norm_num

/-- **C5, amended.**  For every `u8` run with `start ≤ end` spanning
`n = end - start + 1 ≤ 31` values, `split_run` yields exactly
`2^(n-1) - 1` partitions; every partition is a non-empty ordered sequence
of sub-runs of the run's color that are contiguous and gapless and whose
concatenated closed ranges reconstruct `[start, end]` exactly; the
unsplit run is never among the results.  (For 32 or more values the `i32`
mask arithmetic truncates the enumeration, see the counterexample.) -/
theorem C5_split_partitions (r : Run) (h1 : r.start ≤ r.«end»)
    (h2 : r.«end» < 256) (h3 : r.«end» - r.start + 1 ≤ 31) :
    (split_run r).length = 2 ^ (r.«end» - r.start + 1 - 1) - 1 ∧
      (∀ p ∈ split_run r, p ≠ [] ∧
        isPartitionFromB r.color r.start r.«end» p = true) ∧
      [r] ∉ split_run r := by
  have h3' : r.«end» - r.start ≤ 30 := by omega
  rw [split_run_eq r h1 h2 h3']
  refine ⟨by simp, ?_, ?_⟩
  · intro p hp
    rw [List.mem_map] at hp
    obtain ⟨mask, _, rfl⟩ := hp
    refine ⟨split_run_go_ne_nil _ _ _ _ _ _, ?_⟩
    rw [List.range_eq_range']
    exact split_run_go_partition r.color r.start r.«end» mask h1 h2
      (r.«end» - r.start) 0 r.start (by omega) (by omega)
  · intro hmem
    rw [List.mem_map] at hmem
    obtain ⟨mask, hmask, heq⟩ := hmem
    rw [List.mem_range'_1] at hmask
    have hbit := exists_mask_bit (r.«end» - r.start) mask (by omega)
      (by omega) (by omega)
    rw [List.range_eq_range'] at heq
    have hlen := split_run_go_two_segments r.color r.start r.«end» mask
      (List.range' 0 (r.«end» - r.start)) r.start
      (by rw [List.range_eq_range'] at hbit; exact hbit)
    rw [heq] at hlen
    simp at hlen

/-- **C5, witness** at the run Blue 1-3 (`n = 3` values, 3 partitions). -/
theorem C5_split_partitions_witness :
    (Run.mk 1 3 .Blue).start ≤ (Run.mk 1 3 .Blue).«end» ∧
      (Run.mk 1 3 .Blue).«end» < 256 ∧
      (Run.mk 1 3 .Blue).«end» - (Run.mk 1 3 .Blue).start + 1 ≤ 31 ∧
      ((split_run ⟨1, 3, .Blue⟩).length = 2 ^ (3 - 1 + 1 - 1) - 1 ∧
        (∀ p ∈ split_run ⟨1, 3, .Blue⟩, p ≠ [] ∧
          isPartitionFromB .Blue 1 3 p = true) ∧
        [⟨1, 3, .Blue⟩] ∉ split_run ⟨1, 3, .Blue⟩) :=
  ⟨by decide, by decide, by decide,
    C5_split_partitions ⟨1, 3, .Blue⟩ (by decide) (by decide) (by decide)⟩

/-! ### Compression (C7) -/

instance : IsTotal Run RunOrd where
  total a b := by
    simp only [RunOrd, runLe]
    by_cases h : a.color.idx = b.color.idx
    · rw [if_pos h, if_pos h.symm]
      simp only [decide_eq_true_eq]
      omega
    · rw [if_neg h, if_neg (fun hh => h hh.symm)]
      simp only [decide_eq_true_eq]
      omega

instance : IsTrans Run RunOrd where
  trans a b c hab hbc := by
    simp only [RunOrd, runLe] at hab hbc ⊢
    split_ifs at hab hbc ⊢ <;>
      simp only [decide_eq_true_eq] at * <;> omega

/-- `runLe` only looks at the color and the start. -/
theorem runLe_congr (a x y : Run) (hc : x.color = y.color)
    (hs : x.start = y.start) : runLe a x = runLe a y := by
  simp only [runLe, hc, hs]

/-- Two adjacent output runs of the merge loop never satisfy the merge
condition (otherwise the loop would have merged them). -/
def noMergeAdj (a b : Run) : Prop :=
  ¬(b.color = a.color ∧ b.start = u8add a.«end» 1)

/-- Every run produced by the merge loop carries the color and start of
one of the input runs (merging only grows the end). -/
theorem compress_go_keys :
    ∀ (cur : Run) (rest : List Run) (x : Run), x ∈ compress_go cur rest →
      ∃ y ∈ cur :: rest, x.color = y.color ∧ x.start = y.start
  | cur, [], x, hx => by
    simp only [compress_go, List.mem_singleton] at hx
    exact ⟨cur, List.mem_cons_self .., by simp [hx]⟩
  | cur, r :: rs, x, hx => by
    unfold compress_go at hx
    split at hx
    · obtain ⟨y, hy, hk⟩ := compress_go_keys _ rs x hx
      rcases List.mem_cons.mp hy with rfl | hy'
      · exact ⟨cur, List.mem_cons_self .., hk⟩
      · exact ⟨y, List.mem_cons_of_mem _ (List.mem_cons_of_mem _ hy'), hk⟩
    · rcases List.mem_cons.mp hx with rfl | hx'
      · exact ⟨x, List.mem_cons_self .., rfl, rfl⟩
      · obtain ⟨y, hy, hk⟩ := compress_go_keys r rs x hx'
        exact ⟨y, List.mem_cons_of_mem _ hy, hk⟩

/-- The merge loop starts its output with the current run's color and
start. -/
theorem compress_go_head :
    ∀ (cur : Run) (rest : List Run), ∃ z t, compress_go cur rest = z :: t ∧
      z.color = cur.color ∧ z.start = cur.start
  | cur, [] => ⟨cur, [], rfl, rfl, rfl⟩
  | cur, r :: rs => by
    unfold compress_go
    split
    · obtain ⟨z, t, he, hc, hs⟩ := compress_go_head { cur with «end» := r.«end» } rs
      exact ⟨z, t, he, hc, hs⟩
    · exact ⟨cur, compress_go r rs, rfl, rfl, rfl⟩

/-- The merge loop preserves sortedness by `(color, start)`. -/
theorem compress_go_sorted :
    ∀ (cur : Run) (rest : List Run), List.Pairwise RunOrd (cur :: rest) →
      List.Pairwise RunOrd (compress_go cur rest)
  | cur, [], _ => by simp [compress_go]
  | cur, r :: rs, h => by
    unfold compress_go
    rcases List.pairwise_cons.mp h with ⟨hcur, htail⟩
    rcases List.pairwise_cons.mp htail with ⟨hr, hrs⟩
    split
    · refine compress_go_sorted { cur with «end» := r.«end» } rs
        (List.pairwise_cons.mpr ⟨fun x hx => ?_, hrs⟩)
      exact hcur x (List.mem_cons_of_mem _ hx)
    · refine List.pairwise_cons.mpr ⟨fun x hx => ?_,
        compress_go_sorted r rs htail⟩
      obtain ⟨y, hy, hc, hs⟩ := compress_go_keys r rs x hx
      have hle : RunOrd cur y := hcur y hy
      show runLe cur x = true
      rw [runLe_congr cur x y hc hs]
      exact hle

/-- Adjacent runs in the merge loop's output never satisfy the merge
condition. -/
theorem compress_go_chain :
    ∀ (cur : Run) (rest : List Run),
      List.Chain' noMergeAdj (compress_go cur rest)
  | _, [] => List.chain'_singleton _
  | cur, r :: rs => by
    unfold compress_go
    split
    · exact compress_go_chain { cur with «end» := r.«end» } rs
    · rename_i hcond
      obtain ⟨z, t, he, hc, hs⟩ := compress_go_head r rs
      rw [he]
      refine List.chain'_cons.mpr ⟨?_, by rw [← he]; exact compress_go_chain r rs⟩
      intro hzc
      exact hcond ⟨hc ▸ hzc.1, hs ▸ hzc.2⟩

/-- On a list whose adjacent runs never satisfy the merge condition, the
merge loop is the identity. -/
theorem compress_go_of_chain :
    ∀ (cur : Run) (rest : List Run), List.Chain' noMergeAdj (cur :: rest) →
      compress_go cur rest = cur :: rest
  | _, [], _ => rfl
  | cur, r :: rs, h => by
    rcases List.chain'_cons.mp h with ⟨hhd, htl⟩
    unfold compress_go
    rw [if_neg hhd]
    rw [compress_go_of_chain r rs htl]

/-- **C7.**  `compress_runs` is idempotent, its output is ordered by
`(color, start)`, and compressing `[Blue 1-2, Blue 3-4, Red 5-6]` yields
exactly `[Blue 1-4, Red 5-6]`. -/
theorem C7_compress_idempotent (runs : List Run) :
    compress_runs (compress_runs runs) = compress_runs runs ∧
      List.Pairwise RunOrd (compress_runs runs) ∧
      compress_runs [⟨1, 2, .Blue⟩, ⟨3, 4, .Blue⟩, ⟨5, 6, .Red⟩] =
        [⟨1, 4, .Blue⟩, ⟨5, 6, .Red⟩] := by
  refine ⟨?_, ?_, by decide⟩ <;>
    rcases hs : runs.insertionSort RunOrd with _ | ⟨r, rest⟩
  · simp [compress_runs, hs]
  · have hsorted : List.Pairwise RunOrd (r :: rest) := by
      rw [← hs]
      exact List.sorted_insertionSort RunOrd runs
    have hout : compress_runs runs = compress_go r rest := by
      simp [compress_runs, hs]
    have houtSorted : List.Pairwise RunOrd (compress_go r rest) :=
      compress_go_sorted r rest hsorted
    have houtChain : List.Chain' noMergeAdj (compress_go r rest) :=
      compress_go_chain r rest
    rw [hout]
    show compress_runs (compress_go r rest) = compress_go r rest
    have hfix : (compress_go r rest).insertionSort RunOrd = compress_go r rest :=
      List.Sorted.insertionSort_eq houtSorted
    unfold compress_runs
    rw [hfix]
    rcases hgo : compress_go r rest with _ | ⟨z, t⟩
    · rfl
    · exact compress_go_of_chain z t (hgo ▸ houtChain)
  · simp [compress_runs, hs]
  · have hsorted : List.Pairwise RunOrd (r :: rest) := by
      rw [← hs]
      exact List.sorted_insertionSort RunOrd runs
    have hout : compress_runs runs = compress_go r rest := by
      simp [compress_runs, hs]
    rw [hout]
    exact compress_go_sorted r rest hsorted

/-! ### Validity preservation (C3) -/

/-- `runLe` only looks at the color and the start of its left argument. -/
theorem runLe_congr_left (a b x : Run) (hc : a.color = b.color)
    (hs : a.start = b.start) : runLe a x = runLe b x := by
  simp only [runLe, hc, hs]

/-- `Board.valid` spelled element-wise. -/
theorem board_valid_iff (b : Board) :
    b.valid = true ↔
      (∀ g ∈ b.groups, g.valid = true) ∧ (∀ r ∈ b.runs, r.valid = true) := by
  simp [Board.valid, List.all_eq_true]

/-- The merge loop preserves run validity on a sorted input: a merge glues
a valid run onto a same-color run that starts no later, so the merged run
is still at least 3 values long. -/
theorem compress_go_valid :
    ∀ (cur : Run) (rest : List Run), cur.valid = true →
      (∀ r ∈ rest, r.valid = true) →
      List.Pairwise RunOrd (cur :: rest) →
      ∀ x ∈ compress_go cur rest, x.valid = true
  | cur, [], hc, _, _, x, hx => by
    simp only [compress_go, List.mem_singleton] at hx
    exact hx ▸ hc
  | cur, r :: rs, hc, hrest, hpair, x, hx => by
    rcases List.pairwise_cons.mp hpair with ⟨hcur, htail⟩
    unfold compress_go at hx
    split at hx
    · rename_i hcond
      have hr : r.valid = true := hrest r (List.mem_cons_self ..)
      have hss : cur.start ≤ r.start := by
        have h' : runLe cur r = true := hcur r (List.mem_cons_self ..)
        unfold runLe at h'
        have hidx : cur.color.idx = r.color.idx := by rw [hcond.1]
        rw [if_pos hidx] at h'
        simpa using h'
      have hmv : ({ cur with «end» := r.«end» } : Run).valid = true := by
        unfold Run.valid at hr ⊢
        simp only [Bool.and_eq_true, decide_eq_true_eq] at hr ⊢
        omega
      refine compress_go_valid _ rs hmv
        (fun y hy => hrest y (List.mem_cons_of_mem _ hy)) ?_ x hx
      refine List.pairwise_cons.mpr
        ⟨fun y hy => ?_, (List.pairwise_cons.mp htail).2⟩
      exact hcur y (List.mem_cons_of_mem _ hy)
    · rcases List.mem_cons.mp hx with rfl | hx'
      · exact hc
      · exact compress_go_valid r rs (hrest r (List.mem_cons_self ..))
          (fun y hy => hrest y (List.mem_cons_of_mem _ hy)) htail x hx'

/-- `compress_runs` preserves run validity. -/
theorem compress_runs_valid (rs : List Run) (h : ∀ r ∈ rs, r.valid = true) :
    ∀ x ∈ compress_runs rs, x.valid = true := by
  intro x hx
  rcases hs : rs.insertionSort RunOrd with _ | ⟨r, rest⟩ <;>
    simp only [compress_runs, hs] at hx
  · exact absurd hx (by simp)
  · have hmem : ∀ y ∈ r :: rest, y ∈ rs := fun y hy =>
      (List.perm_insertionSort RunOrd rs).mem_iff.mp (hs ▸ hy)
    have hpair : List.Pairwise RunOrd (r :: rest) := by
      rw [← hs]
      exact List.sorted_insertionSort RunOrd rs
    exact compress_go_valid r rest (h r (hmem r (List.mem_cons_self ..)))
      (fun y hy => h y (hmem y (List.mem_cons_of_mem _ hy))) hpair x hx

/-- Compressing the runs of a valid board yields a valid board. -/
theorem board_compress_valid (b : Board) (h : b.valid = true) :
    (Board.mk b.groups (compress_runs b.runs)).valid = true := by
  rw [board_valid_iff] at h ⊢
  exact ⟨h.1, compress_runs_valid b.runs h.2⟩

/-- A pass that places no tile leaves the board unchanged. -/
theorem place_tiles_placed_nil :
    ∀ (b : Board) (ts : List Tile), (place_tiles b ts).2 = [] →
      (place_tiles b ts).1 = b
  | _, [], _ => rfl
  | b, t :: ts, h => by
    unfold place_tiles at h ⊢
    cases hp : place_tile b t with
    | some nb =>
      rw [hp] at h
      simp at h
    | none =>
      rw [hp] at h
      exact place_tiles_placed_nil b ts h

/-- Loop invariant for `place_best_loop`: while the best placed list is
empty the best board is the input board, and once it is non-empty the
best board passed the validity check; hence every returned board is a
compression of a valid board and is itself valid. -/
theorem place_best_loop_valid (board : Board) (tilesLen : Nat)
    (tiles : List Tile) :
    ∀ (ps : List (List Tile)) (bestB : Board) (bestT : List Tile),
      (bestT = [] → bestB = board) → (bestT ≠ [] → bestB.valid = true) →
      ∀ res, place_best_loop board tilesLen tiles ps bestB bestT = some res →
        res.1.valid = true := by
  intro ps
  induction ps with
  | nil =>
    intro bestB bestT h1 h2 res h
    unfold place_best_loop at h
    split at h
    · exact absurd h (by simp)
    · rename_i hne
      have hv : bestB.valid = true := h2 (by simpa using hne)
      have hres := Option.some.inj h
      rw [← hres]
      exact board_compress_valid bestB hv
  | cons p ps ih =>
    intro bestB bestT h1 h2 res h
    simp only [place_best_loop] at h
    split at h
    · rename_i hvalid
      split at h
      · rename_i hupd
        split at h
        · have hres := Option.some.inj h
          rw [← hres]
          exact board_compress_valid _ hvalid
        · exact ih (place_tiles board p).1 (place_tiles board p).2
            (fun habs => absurd hupd (by simp [habs])) (fun _ => hvalid) res h
      · rename_i hupd
        split at h
        · have hres := Option.some.inj h
          rw [← hres]
          rcases bestT with _ | ⟨t0, ts0⟩
          · have hbb : bestB = board := h1 rfl
            have hpl : (place_tiles board p).2 = [] := by
              simp only [List.length_nil] at hupd
              exact List.length_eq_zero.mp (by omega)
            have hb1 : (place_tiles board p).1 = board :=
              place_tiles_placed_nil board p hpl
            have hbv : bestB.valid = true := by
              rw [hbb, ← hb1]
              exact hvalid
            exact board_compress_valid bestB hbv
          · exact board_compress_valid bestB (h2 (by simp))
        · exact ih bestB bestT h1 h2 res h
    · exact ih bestB bestT h1 h2 res h

/-- **C3.**  Whenever `place_tiles_best` returns a board, that board is
valid: both return sites first check `Board::valid` on the attempt and
then compress its runs, and run compression preserves validity. -/
theorem C3_place_best_valid (b : Board) (ts : List Tile) (B : Board)
    (P U : List Tile) (h : place_tiles_best b ts = some (B, P, U)) :
    B.valid = true :=
  place_best_loop_valid b ts.length ts (uniqueList (permsLex ts)) b []
    (fun _ => rfl) (fun habs => absurd rfl habs) (B, P, U) h

/-- **C3, witness** on Scenario 2: the returned board Blue 5-8 is valid. -/
theorem C3_place_best_valid_witness :
    (Board.mk [] [⟨5, 8, .Blue⟩]).valid = true :=
  C3_place_best_valid ⟨[], [⟨5, 7, .Blue⟩]⟩ [⟨.Blue, 8⟩]
    ⟨[], [⟨5, 8, .Blue⟩]⟩ [⟨.Blue, 8⟩] [] (by decide)

/-! ### Placed/unplaced bookkeeping (C1) -/

/-- The tiles placed by one pass are a subsequence of the pass's input
order (each index is consumed at most once). -/
theorem place_tiles_sublist : ∀ (b : Board) (ts : List Tile),
    List.Sublist (place_tiles b ts).2 ts
  | _, [] => List.nil_sublist []
  | b, t :: ts => by
    unfold place_tiles
    cases hp : place_tile b t with
    | some nb =>
      show List.Sublist (t :: (place_tiles nb ts).2) (t :: ts)
      exact List.cons_sublist_cons.mpr (place_tiles_sublist nb ts)
    | none =>
      show List.Sublist (place_tiles b ts).2 (t :: ts)
      exact (place_tiles_sublist b ts).cons t

/-- Each entry of `removes l` is the list `l` with one occurrence moved to
the front. -/
theorem removes_perm {α : Type} : ∀ (l : List α) (x : α) (r : List α),
    (x, r) ∈ removes l → l.Perm (x :: r)
  | [], _, _, h => absurd h (List.not_mem_nil _)
  | y :: ys, x, r, h => by
    rcases List.mem_cons.mp h with heq | hmem
    · cases heq
      exact List.Perm.refl _
    · rw [List.mem_map] at hmem
      obtain ⟨⟨x', r'⟩, hm, heq⟩ := hmem
      cases heq
      have ih := removes_perm ys x' r' hm
      exact (ih.cons y).trans (List.Perm.swap x' y r')

/-- Every list enumerated by `permsAux` is a permutation of the input. -/
theorem permsAux_perm {α : Type} : ∀ (n : Nat) (l : List α),
    l.length = n → ∀ p ∈ permsAux n l, p.Perm l
  | 0, l, hl, p, hp => by
    simp only [permsAux, List.mem_singleton] at hp
    subst hp
    rw [List.length_eq_zero.mp hl]
  | n + 1, l, hl, p, hp => by
    simp only [permsAux, List.mem_flatMap] at hp
    obtain ⟨⟨x, r⟩, hmem, hp'⟩ := hp
    rw [List.mem_map] at hp'
    obtain ⟨q, hq, rfl⟩ := hp'
    have hlr : l.Perm (x :: r) := removes_perm l x r hmem
    have hr : r.length = n := by
      have := hlr.length_eq
      simp at this
      omega
    exact ((permsAux_perm n r hr q hq).cons x).trans hlr.symm

/-- Every enumerated permutation really is a permutation of the tiles. -/
theorem permsLex_perm {α : Type} (l : List α) (p : List α)
    (hp : p ∈ permsLex l) : p.Perm l :=
  permsAux_perm l.length l rfl p hp

/-- Membership in the deduplicated list. -/
theorem mem_uniqueAux {α : Type} [DecidableEq α] :
    ∀ (seen l : List α) (x : α),
      x ∈ uniqueAux seen l ↔ x ∈ l ∧ x ∉ seen
  | _, [], x => by simp [uniqueAux]
  | seen, y :: ys, x => by
    unfold uniqueAux
    split
    · rename_i hy
      rw [mem_uniqueAux seen ys x]
      simp only [List.mem_cons]
      constructor
      · exact fun ⟨h1, h2⟩ => ⟨Or.inr h1, h2⟩
      · rintro ⟨hor, h2⟩
        rcases hor with rfl | h1
        · exact absurd hy h2
        · exact ⟨h1, h2⟩
    · rename_i hy
      simp only [List.mem_cons, mem_uniqueAux (y :: seen) ys x]
      constructor
      · rintro (rfl | ⟨h1, h2⟩)
        · exact ⟨Or.inl rfl, hy⟩
        · exact ⟨Or.inr h1, fun hf => h2 (Or.inr hf)⟩
      · rintro ⟨hor, h2⟩
        rcases hor with rfl | h1
        · exact Or.inl rfl
        · by_cases hxy : x = y
          · exact Or.inl hxy
          · refine Or.inr ⟨h1, fun hf => ?_⟩
            rcases hf with rfl | hf'
            · exact hxy rfl
            · exact h2 hf' 

/-- `uniqueList` keeps exactly the members of the input. -/
theorem mem_uniqueList {α : Type} [DecidableEq α] (l : List α) (x : α) :
    x ∈ uniqueList l ↔ x ∈ l := by
  rw [uniqueList, mem_uniqueAux]
  simp

/-- Loop lemma for the bookkeeping of `place_tiles_best`: on every `Some`
result the placed list is a subsequence of one permutation of the tiles,
and the unplaced list is the `contains`-filtered complement (or is empty
with the placed list a full permutation, on the short-circuit path). -/
theorem place_best_loop_placed (board : Board) (tiles : List Tile) :
    ∀ (ps : List (List Tile)) (bestB : Board) (bestT : List Tile),
      (∀ p ∈ ps, p.Perm tiles) →
      (bestT = [] ∨ ∃ p, p.Perm tiles ∧ List.Sublist bestT p) →
      ∀ res, place_best_loop board tiles.length tiles ps bestB bestT = some res →
        (∃ p, p.Perm tiles ∧ List.Sublist res.2.1 p) ∧
          (res.2.2 = tiles.filter (fun t => !(res.2.1.contains t)) ∨
            (res.2.2 = [] ∧ res.2.1.Perm tiles)) := by
  intro ps
  induction ps with
  | nil =>
    intro bestB bestT _ hinv res h
    unfold place_best_loop at h
    split at h
    · exact absurd h (by simp)
    · rename_i hne
      have hres := Option.some.inj h
      rw [← hres]
      rcases hinv with rfl | ⟨p, hp, hsub⟩
      · exact absurd rfl hne
      · exact ⟨⟨p, hp, hsub⟩, Or.inl rfl⟩
  | cons p ps ih =>
    intro bestB bestT hps hinv res h
    have hp : p.Perm tiles := hps p (List.mem_cons_self ..)
    have hps' : ∀ q ∈ ps, q.Perm tiles := fun q hq =>
      hps q (List.mem_cons_of_mem _ hq)
    simp only [place_best_loop] at h
    split at h
    · split at h
      · rename_i hupd
        split at h
        · rename_i hlen
          have hres := Option.some.inj h
          rw [← hres]
          have hsub : List.Sublist (place_tiles board p).2 p :=
            place_tiles_sublist board p
          have hfull : (place_tiles board p).2 = p :=
            hsub.eq_of_length (by rw [hlen, hp.length_eq])
          refine ⟨⟨p, hp, hsub⟩, Or.inr ⟨rfl, ?_⟩⟩
          show ((place_tiles board p).2).Perm tiles
          rw [hfull]
          exact hp
        · exact ih (place_tiles board p).1 (place_tiles board p).2 hps'
            (Or.inr ⟨p, hp, place_tiles_sublist board p⟩) res h
      · rename_i hupd
        split at h
        · rename_i hlen
          have hres := Option.some.inj h
          rw [← hres]
          rcases hinv with rfl | ⟨q, hq, hsub⟩
          · have htiles : tiles = [] := by
              have : tiles.length = 0 := by simpa using hlen.symm
              exact List.length_eq_zero.mp this
            refine ⟨⟨[], by rw [htiles], List.nil_sublist []⟩, Or.inr ⟨rfl, by rw [htiles]⟩⟩
          · have hfull : bestT = q :=
              hsub.eq_of_length (by rw [hlen, hq.length_eq])
            refine ⟨⟨q, hq, hsub⟩, Or.inr ⟨rfl, ?_⟩⟩
            show bestT.Perm tiles
            rw [hfull]
            exact hq
        · exact ih bestB bestT hps' hinv res h
    · exact ih bestB bestT hps' hinv res h

/-- **C1, counterexample.**  With the valid board Blue 2-4 and the tiles
`[Blue 6, Blue 5, Blue 6]` (a duplicate pair), the best attempt places
Blue 5 then one Blue 6; the unplaced list is computed by filtering out
every tile contained in the placed list, so the second Blue 6 vanishes:
`placed ∪ unplaced = {Blue 5, Blue 6}` is not the input multiset. -/
theorem C1_counterexample :
    place_tiles_best ⟨[], [⟨2, 4, .Blue⟩]⟩
        [⟨.Blue, 6⟩, ⟨.Blue, 5⟩, ⟨.Blue, 6⟩] =
      some (⟨[], [⟨2, 6, .Blue⟩]⟩, [⟨.Blue, 5⟩, ⟨.Blue, 6⟩], []) ∧
      ¬((([⟨.Blue, 5⟩, ⟨.Blue, 6⟩] : List Tile) ++ ([] : List Tile)).Perm
          [⟨.Blue, 6⟩, ⟨.Blue, 5⟩, ⟨.Blue, 6⟩]) := by
  refine ⟨by decide, fun hperm => ?_⟩
  have := hperm.length_eq
  simp at this

/-- **C1, amended.**  Whenever `place_tiles_best` returns
`(B, placed, unplaced)`, `placed` and `unplaced` are disjoint, and if the
input tiles are duplicate-free then `placed ++ unplaced` is a permutation
of the input tiles.  (With duplicated input tiles the multiset equation
can fail: `unplaced` is computed by a `contains` filter, so every copy of
a tile with at least one placed copy is dropped from `unplaced`.) -/
theorem C1_unplaced_complement (b : Board) (ts : List Tile) (B : Board)
    (P U : List Tile) (h : place_tiles_best b ts = some (B, P, U)) :
    (∀ t ∈ P, t ∉ U) ∧ (ts.Nodup → (P ++ U).Perm ts) := by
  have hmain := place_best_loop_placed b ts (uniqueList (permsLex ts)) b []
    (fun p hp => permsLex_perm ts p ((mem_uniqueList (permsLex ts) p).mp hp))
    (Or.inl rfl) (B, P, U) h
  obtain ⟨⟨p, hperm, hsub0⟩, hU0⟩ := hmain
  have hsub : List.Sublist P p := hsub0
  have hU : U = ts.filter (fun t => !(P.contains t)) ∨
      (U = [] ∧ P.Perm ts) := hU0
  clear hsub0 hU0
  constructor
  · intro t htP htU
    rcases hU with hU | ⟨hU, _⟩
    · rw [hU, List.mem_filter] at htU
      have := htU.2
      simp only [Bool.not_eq_true'] at this
      rw [List.contains_eq_any_beq] at this
      simp only [List.any_eq_false, beq_iff_eq] at this
      exact this t htP rfl
    · rw [hU] at htU
      exact absurd htU (List.not_mem_nil t)
  · intro hnd
    rcases hU with hU | ⟨hU, hPp⟩
    · have hpnd : p.Nodup := hperm.nodup_iff.mpr hnd
      have hPnd : P.Nodup := hpnd.sublist hsub
      rw [List.perm_iff_count]
      intro t
      rw [List.count_append]
      by_cases htP : t ∈ P
      · have hc1 : P.count t = 1 :=
          Nat.le_antisymm (List.nodup_iff_count_le_one.mp hPnd t)
            (List.count_pos_iff.mpr htP)
        have hc0 : U.count t = 0 := by
          rw [hU, List.count_eq_zero]
          intro hmem
          rw [List.mem_filter] at hmem
          have := hmem.2
          simp only [Bool.not_eq_true'] at this
          rw [List.contains_eq_any_beq] at this
          simp only [List.any_eq_false, beq_iff_eq] at this
          exact this t htP rfl
        have hts : t ∈ ts := hperm.mem_iff.mp (hsub.subset htP)
        have hct : ts.count t = 1 :=
          Nat.le_antisymm (List.nodup_iff_count_le_one.mp hnd t)
            (List.count_pos_iff.mpr hts)
        omega
      · have hcP : P.count t = 0 := List.count_eq_zero.mpr htP
        have hcU : U.count t = ts.count t := by
          rw [hU]
          apply List.count_filter
          simp only [Bool.not_eq_eq_eq_not, Bool.not_true]
          rw [List.contains_eq_any_beq]
          simp only [List.any_eq_false, beq_iff_eq]
          intro a ha hat
          exact htP (hat ▸ ha)
        omega
    · rw [hU, List.append_nil]
      exact hPp

/-- **C1, witness** on Scenario 2 (duplicate-free tiles): placed and
unplaced are disjoint and together a permutation of the input. -/
theorem C1_unplaced_complement_witness :
    (∀ t ∈ ([⟨.Blue, 8⟩] : List Tile), t ∉ ([] : List Tile)) ∧
      (([⟨.Blue, 8⟩] : List Tile).Nodup →
        (([⟨.Blue, 8⟩] : List Tile) ++ ([] : List Tile)).Perm
          [⟨.Blue, 8⟩]) :=
  C1_unplaced_complement ⟨[], [⟨5, 7, .Blue⟩]⟩ [⟨.Blue, 8⟩]
    ⟨[], [⟨5, 8, .Blue⟩]⟩ [⟨.Blue, 8⟩] [] (by decide)

/-! ### The None/Some boundary of the search (C4) -/

/-- For every member `x` of `l` there is a `removes`-entry for `x` whose
remainder is a permutation of `l.erase x`. -/
theorem exists_removes {α : Type} [DecidableEq α] :
    ∀ (l : List α) (x : α), x ∈ l →
      ∃ r, (x, r) ∈ removes l ∧ r.Perm (l.erase x)
  | [], x, h => absurd h (List.not_mem_nil x)
  | y :: ys, x, h => by
    by_cases hxy : x = y
    · subst hxy
      exact ⟨ys, List.mem_cons_self .., by rw [List.erase_cons_head]⟩
    · have hx : x ∈ ys := (List.mem_cons.mp h).resolve_left hxy
      obtain ⟨r, hr, hp⟩ := exists_removes ys x hx
      refine ⟨y :: r, ?_, ?_⟩
      · exact List.mem_cons_of_mem _ (List.mem_map.mpr ⟨(x, r), hr, rfl⟩)
      · rw [List.erase_cons_tail (by simpa using fun h => hxy h.symm)]
        exact hp.cons y

/-- `permsAux` enumerates every permutation of the input. -/
theorem permsAux_complete {α : Type} [DecidableEq α] :
    ∀ (n : Nat) (l p : List α), l.length = n → p.Perm l → p ∈ permsAux n l
  | 0, l, p, hl, hp => by
    have hnil : l = [] := List.length_eq_zero.mp hl
    subst hnil
    simp only [permsAux, List.mem_singleton]
    exact List.perm_nil.mp hp
  | n + 1, l, p, hl, hp => by
    rcases p with _ | ⟨x, q⟩
    · have := hp.length_eq
      simp [hl] at this
    · have hx : x ∈ l := hp.subset (List.mem_cons_self ..)
      obtain ⟨r, hr, hrp⟩ := exists_removes l x hx
      have hq : q.Perm r :=
        ((List.cons_perm_iff_perm_erase.mp hp).2).trans hrp.symm
      have hrlen : r.length = n := by
        have := (removes_perm l x r hr).length_eq
        simp only [List.length_cons, hl] at this
        omega
      simp only [permsAux, List.mem_flatMap]
      exact ⟨(x, r), hr,
        List.mem_map.mpr ⟨q, permsAux_complete n r q hrlen hq, rfl⟩⟩

/-- Completeness of the enumeration: every permutation of `l` appears. -/
theorem permsLex_complete {α : Type} [DecidableEq α] (l p : List α)
    (hp : p.Perm l) : p ∈ permsLex l :=
  permsAux_complete l.length l p rfl hp

/-- On an empty hand the search evaluates the single empty permutation:
a valid board short-circuits to `Some (compressed board, [], [])`, an
invalid board yields `none`. -/
theorem place_best_empty (b : Board) :
    place_tiles_best b [] =
      if b.valid = true then
        some (⟨b.groups, compress_runs b.runs⟩, [], [])
      else none := by
  by_cases hv : b.valid = true <;>
    simp [place_tiles_best, permsLex, permsAux, uniqueList, uniqueAux,
      place_best_loop, place_tiles, hv]

/-- The loop yields `none` exactly when nothing was recorded yet and no
remaining permutation gives a valid attempt that places a tile (for a
non-empty hand, so the short-circuit needs a non-empty best). -/
theorem place_best_loop_none_iff (board : Board) (tilesLen : Nat)
    (tiles : List Tile) (hlen : tilesLen ≠ 0) :
    ∀ (ps : List (List Tile)) (bestB : Board) (bestT : List Tile),
      (place_best_loop board tilesLen tiles ps bestB bestT = none ↔
        (bestT = [] ∧ ∀ p ∈ ps,
          ¬((place_tiles board p).1.valid = true ∧
            (place_tiles board p).2 ≠ []))) := by
  intro ps
  induction ps with
  | nil =>
    intro bestB bestT
    unfold place_best_loop
    split
    · rename_i hem
      exact ⟨fun _ => ⟨List.isEmpty_iff.mp hem,
          fun q hq => absurd hq (List.not_mem_nil q)⟩,
        fun _ => rfl⟩
    · rename_i hem
      constructor
      · intro habs
        exact absurd habs (by simp)
      · rintro ⟨rfl, _⟩
        exact absurd rfl hem
  | cons p ps ih =>
    intro bestB bestT
    simp only [place_best_loop, List.forall_mem_cons]
    split
    · rename_i hvalid
      split
      · rename_i hupd
        split
        · rename_i hsc
          constructor
          · intro habs
            exact absurd habs (by simp)
          · rintro ⟨rfl, ⟨hgood, _⟩⟩
            refine absurd ⟨hvalid, fun habs => hlen ?_⟩ hgood
            rw [habs] at hsc
            simpa using hsc.symm
        · rw [ih]
          constructor
          · rintro ⟨habs, _⟩
            have habs' : (place_tiles board p).2 = [] := habs
            rw [habs'] at hupd
            exact absurd hupd (by simp)
          · rintro ⟨rfl, ⟨hgood, _⟩⟩
            refine absurd ⟨hvalid, fun habs => ?_⟩ hgood
            rw [habs] at hupd
            exact absurd hupd (by simp)
      · rename_i hupd
        split
        · rename_i hsc
          constructor
          · intro habs
            exact absurd habs (by simp)
          · rintro ⟨rfl, _⟩
            exact (hlen (by simpa using hsc.symm)).elim
        · rw [ih]
          constructor
          · rintro ⟨hT, hrest⟩
            have hT' : bestT = [] := hT
            refine ⟨hT', ⟨fun hgood => ?_, hrest⟩⟩
            rw [hT'] at hupd
            simp only [List.length_nil] at hupd
            exact hgood.2 (List.length_eq_zero.mp (by omega))
          · rintro ⟨hT, ⟨_, hrest⟩⟩
            exact ⟨hT, hrest⟩
    · rename_i hvalid
      rw [ih]
      constructor
      · rintro ⟨hT, hrest⟩
        exact ⟨hT, ⟨fun hgood => hvalid hgood.1, hrest⟩⟩
      · rintro ⟨hT, ⟨_, hrest⟩⟩
        exact ⟨hT, hrest⟩

/-- **C4, counterexample.**  The claim says `place_tiles_best` yields no
value iff no permutation places even one tile.  On the empty valid board
with no tiles, no permutation places any tile, yet the short-circuit
(`best_tiles.len() == tiles.len()` with both zero) returns
`Some (board, [], [])`. -/
theorem C4_counterexample :
    place_tiles_best ⟨[], []⟩ [] = some (⟨[], []⟩, [], []) ∧
      (place_tiles ⟨[], []⟩ []).2 = [] :=
  ⟨by decide, rfl⟩

/-- **C4, amended.**  `place_tiles_best(board, tiles)` yields no value iff
neither (a) the tiles are empty with the board valid (that case
short-circuits to `Some(compressed board, [], [])` without placing
anything), nor (b) some permutation of the tiles yields a pass whose
resulting board is valid and which places at least one tile.  In
particular invalid-board attempts are discarded even when they placed
tiles. -/
theorem C4_none_iff (b : Board) (ts : List Tile) :
    place_tiles_best b ts = none ↔
      ¬((ts = [] ∧ b.valid = true) ∨
        ∃ p, p.Perm ts ∧ (place_tiles b p).1.valid = true ∧
          (place_tiles b p).2 ≠ []) := by
  rcases ts with _ | ⟨t, ts'⟩
  · rw [place_best_empty]
    by_cases hv : b.valid = true
    · simp [hv, List.perm_nil, place_tiles]
    · simp [hv, List.perm_nil, place_tiles]
  · rw [place_tiles_best,
      place_best_loop_none_iff b (t :: ts').length (t :: ts') (by simp)]
    simp only [true_and]
    constructor
    · intro hall
      rintro (⟨habs, _⟩ | ⟨p, hp, hgood⟩)
      · exact absurd habs (by simp)
      · exact hall p
          ((mem_uniqueList _ _).mpr (permsLex_complete _ p hp)) hgood
    · intro hnone p hp hgood
      exact hnone (Or.inr
        ⟨p, permsLex_perm _ p ((mem_uniqueList _ _).mp hp), hgood⟩)

end Rummikub
